import Mathlib

/-!
Verification of the asynchronous control-flow tutorial repository.

Two components are embedded from source:

* `PromiseCore` — the final deferred/promise engine of `src/promise.js`
  (lines 872-951): `defer`, the `then` wrapper pair it installs, `resolve`,
  `reject`, and the result-resolution function `Resolve` (lines 915-926).

* `GenCore` — the generator-based coroutine runner and thunk aggregator of
  the generator control-flow file (final versions: `run`/`next` at lines
  371-384, `toThunk` at lines 386-394, `arrayToThunk` at lines 396-413).

JavaScript callbacks are defunctionalized: every function value that the
embedded code ever stores or invokes is one of a small set of closure shapes,
represented by an inductive code and interpreted by a fueled, executable
interpreter.  The fuel only bounds the synchronous call depth; every theorem
supplies enough fuel for its run, so no behavior is cut off.
-/

namespace PromiseCore

/-- JavaScript values as far as the promise engine inspects them:
`null`, `undefined`, numbers, strings, and promise handles (an object
exposing a `then` method; `id` indexes the owning deferred).  The
thenable test in `Resolve` (line 916) is true exactly on `prom`. -/
inductive Val where
  | vnull
  | undef
  | num (n : Int)
  | str (s : String)
  | prom (id : Nat)
  deriving DecidableEq, Repr

/-- Closure shapes of the JavaScript functions handed to `then` as
`_callback` / `_errback`.  `hconst v` is a handler returning `v`;
`hthrow e` a handler throwing `e`; `hrethrow` is the default errback
`function(err) \x7b throw err \x7d` installed at lines 891-893;
`hadoptRes t` / `hadoptErr t` are the adoption continuations
`function(res) \x7b deferred.resolve(res) \x7d` and
`function(err) \x7b deferred.reject(err) \x7d` that `Resolve` registers at
lines 917-920 (`t` is the deferred being resolved); `hrecord tag` is an
external observer handler that records its argument and returns
`undefined`. -/
inductive Handler where
  | hconst (v : Val)
  | hthrow (e : Val)
  | hrethrow
  | hadoptRes (target : Nat)
  | hadoptErr (target : Nat)
  | hrecord (tag : String)
  deriving DecidableEq, Repr

/-- One deferred: the single `callback` / `errback` slot pair closed over by
`defer` (line 876).  A slot holds the handler passed to `then` together with
the id of the `nextDeferred` the wrapper closes over (lines 880-900). -/
structure Deferred where
  callback : Option (Handler × Nat)
  errback : Option (Handler × Nat)
  deriving DecidableEq, Repr

/-- Observable events of a run: every call of a deferred's `resolve` /
`reject` (lines 904-909), and every invocation of an observer handler. -/
inductive Ev where
  | resolveCalled (d : Nat) (v : Val)
  | rejectCalled (d : Nat) (e : Val)
  | handlerRan (tag : String) (arg : Val)
  deriving DecidableEq, Repr

/-- Global state: the allocated deferreds (ids are list positions) and the
event trace. -/
structure PState where
  heap : List Deferred
  events : List Ev
  deriving DecidableEq, Repr

/-- Allocation `defer()` (lines 875-913): a fresh deferred with empty slots. -/
def defer (s : PState) : PState × Nat :=
  ({ s with heap := s.heap ++ [⟨none, none⟩] }, s.heap.length)

/-- Read a deferred; out-of-range ids behave as empty slots. -/
def getDef (s : PState) (d : Nat) : Deferred :=
  s.heap.getD d ⟨none, none⟩

/-- Overwrite the slot pair of deferred `d`. -/
def setSlots (s : PState) (d : Nat) (cb eb : Option (Handler × Nat)) : PState :=
  { s with heap := s.heap.set d ⟨cb, eb⟩ }

/-- Chaining `promise.then(_callback, _errback)` (lines 879-902): allocates
`nextDeferred`, installs the callback wrapper (lines 881-890) and the
errback wrapper (lines 894-900) on `p` — overwriting any previous pair —
with `_errback` defaulting to the rethrowing function (lines 891-893), and
returns `nextDeferred`. -/
def thenOp (s : PState) (p : Nat) (cb : Handler) (eb : Option Handler) :
    PState × Nat :=
  let s1d := defer s
  (setSlots s1d.1 p (some (cb, s1d.2)) (some (eb.getD .hrethrow, s1d.2)), s1d.2)

/-- The registration performed by `Resolve` when `value` is thenable
(lines 917-921): `value.then(function(res)\x7b deferred.resolve(res) \x7d,
function(err)\x7b deferred.reject(err) \x7d)` — a `then` call on the promise
`pid` whose handlers forward into `target`. -/
def adopt (s : PState) (pid : Nat) (target : Nat) : PState :=
  (thenOp s pid (.hadoptRes target) (some (.hadoptErr target))).1

/-- A pending settlement call: `resolve(v)` or `reject(e)` on deferred `d`. -/
inductive Task where
  | res (d : Nat) (v : Val)
  | rej (d : Nat) (e : Val)
  deriving DecidableEq, Repr

/-- The synchronous settlement interpreter.

`exec f s (.res d v)` is `d.resolve(v)` (lines 904-906): if a callback
wrapper is installed it runs `res := _callback(v)` and then
`Resolve(nextDeferred, res)` (lines 881-890), rejecting `nextDeferred` on a
throw.  The `Resolve` call (lines 915-926) is inlined at each use: a
thenable result is adopted; otherwise the code executes
`deferred.resolve(null, value)` (line 925) — `resolve` takes a single
parameter `res` (line 904), so the next deferred is resolved with `null`
and `value` is discarded.

`exec f s (.rej d e)` is `d.reject(e)` (lines 907-909): the errback wrapper
runs `_errback(e)` inside `try`, rejecting `nextDeferred` with a thrown
error and doing nothing further on a normal return (lines 894-900). -/
def exec : Nat → PState → Task → PState
  | 0, s, _ => s
  | f + 1, s, .res d v =>
    let s := { s with events := s.events ++ [.resolveCalled d v] }
    match (getDef s d).callback with
    | none => s
    | some (h, next) =>
      match h with
      | .hconst r =>
        match r with
        | .prom pid => adopt s pid next
        | .vnull => exec f s (.res next .vnull)
        | .undef => exec f s (.res next .vnull)
        | .num _ => exec f s (.res next .vnull)
        | .str _ => exec f s (.res next .vnull)
      | .hthrow e => exec f s (.rej next e)
      | .hrethrow => exec f s (.rej next v)
      | .hadoptRes tgt =>
        let s1 := exec f s (.res tgt v)
        exec f s1 (.res next .vnull)
      | .hadoptErr tgt =>
        let s1 := exec f s (.rej tgt v)
        exec f s1 (.res next .vnull)
      | .hrecord tag =>
        let s1 := { s with events := s.events ++ [.handlerRan tag v] }
        exec f s1 (.res next .vnull)
  | f + 1, s, .rej d e =>
    let s := { s with events := s.events ++ [.rejectCalled d e] }
    match (getDef s d).errback with
    | none => s
    | some (h, next) =>
      match h with
      | .hconst _ => s
      | .hthrow e2 => exec f s (.rej next e2)
      | .hrethrow => exec f s (.rej next e)
      | .hadoptRes tgt => exec f s (.res tgt e)
      | .hadoptErr tgt => exec f s (.rej tgt e)
      | .hrecord tag => { s with events := s.events ++ [.handlerRan tag e] }

/-- Result-resolution `Resolve(deferred, value)` (lines 915-926) as a
standalone entry point:
a thenable value is adopted via `value.then(...)`; any other value leads to
`deferred.resolve(null, value)` (line 925), which resolves with `null`
because `resolve` binds only its first argument. -/
def ResolveOp (f : Nat) (s : PState) (d : Nat) (v : Val) : PState :=
  match v with
  | .prom pid => adopt s pid d
  | _ => exec f s (.res d .vnull)

/-- The empty initial state. -/
def pInit : PState := ⟨[], []⟩

/-- Keep only observer invocations from a trace. -/
def handlerEvents (evs : List Ev) : List Ev :=
  evs.filter (fun e =>
    match e with
    | .handlerRan _ _ => true
    | _ => false)

end PromiseCore

namespace GenCore

/-- JavaScript values as far as the coroutine runner inspects them:
plain data (`undefined`, `null`, strings, numbers), function values
(`thunkv`, carrying the completion the thunk will eventually report as
`(error, value)`), and array values (`arrv`).  The runner only probes
`typeof obj` and `Array.isArray` (lines 387-392), so this is the full
discrimination the code performs. -/
inductive GVal where
  | undef
  | gnull
  | str (s : String)
  | num (n : Int)
  | thunkv (outcome : Except GVal GVal)
  | arrv (elems : List GVal)

/-- A resumable procedure (the generator function handed to `run`).
`ret v` is a body that returns `v`; `raise e` a body that throws `e`;
`yld item onv onerr` a body that yields `item` and, on resumption,
continues with `onv v` after `gen.next(v)`.  A `yld` suspension point sits
outside any `try` block, so `gen.throw(e)` propagates `e` out of the
generator; a `yldTry` suspension point sits inside a `try` block whose
catch handler continues with `onerr e` after `gen.throw(e)`. -/
inductive Proc where
  | ret (v : GVal)
  | raise (e : GVal)
  | yld (item : GVal) (onv : GVal → Proc)
  | yldTry (item : GVal) (onv : GVal → Proc) (onerr : GVal → Proc)

/-- Classification produced by `toThunk` (lines 386-394): a raw function is
kept, an array is delegated to `arrayToThunk`. -/
inductive Thunked where
  | single (outcome : Except GVal GVal)
  | aggregate (members : List GVal)

/-- Conversion `toThunk(obj)` (lines 386-394): functions pass through
(line 387-389), arrays go to `arrayToThunk` (lines 390-392), and anything
else throws `Error('We are only thunking arrays and functions')`
synchronously (line 393). -/
def toThunk : GVal → Except String Thunked
  | .thunkv o => .ok (.single o)
  | .arrv xs => .ok (.aggregate xs)
  | _ => .error "We are only thunking arrays and functions"

/-- Whether a value is a function, i.e. invocable as a member thunk. -/
def isThunkV : GVal → Bool
  | .thunkv _ => true
  | _ => false

/-- Whether `toThunk` accepts the value (function or array). -/
def isWorkItem : GVal → Bool
  | .thunkv _ => true
  | .arrv _ => true
  | _ => false

/-- State of one `arrayToThunk(arr)` invocation (lines 396-413):
`results` is the `new Array(arr.length)` with holes still empty
(line 399), `pending` the countdown initialised to `arr.length`
(line 398), `dones` the invocations of the aggregate completion callback
`done` so far — `done(err)` at line 407 or `done(null, results)` at
line 409 — and `consumed` the member completions processed so far, in
arrival order. -/
structure AggState where
  results : List (Option GVal)
  pending : Nat
  dones : List (Except GVal (List (Option GVal)))
  consumed : List Nat

/-- Initial aggregator state (lines 398-399). -/
def aggInit (outcomes : List (Except GVal GVal)) : AggState :=
  ⟨List.replicate outcomes.length none, outcomes.length, [], []⟩

/-- Member completion handler (lines 405-411): when member `i` completes,
`if (err) return done(err);` (line 407) reports the failure immediately and
leaves `pending` and `results` untouched; otherwise `results[index] = res;
--pending || done(null, results);` (lines 408-409) records the result at
the member's original index, decrements the countdown and, when it reaches
zero, reports success with the filled array.  A completion for an index
with no member cannot occur and leaves the state unchanged. -/
def aggStep (outcomes : List (Except GVal GVal)) (st : AggState) (i : Nat) :
    AggState :=
  match outcomes[i]? with
  | none => st
  | some (.error e) =>
    { st with dones := st.dones ++ [.error e], consumed := st.consumed ++ [i] }
  | some (.ok v) =>
    let results := st.results.set i (some v)
    let pending := st.pending - 1
    { results := results, pending := pending,
      dones := st.dones ++ (if pending = 0 then [.ok results] else []),
      consumed := st.consumed ++ [i] }

/-- Starting order of the member thunks: the loop
`for (var i = 0; i < arr.length; i++) resolve(arr[i], i)` (lines 401-403)
invokes every member synchronously, in index order, before any
asynchronous completion can be delivered. -/
def aggStarts (n : Nat) : List Nat := List.range n

/-- A complete aggregator run: all members are started first (lines
401-403), then the asynchronous completions arrive in the order given by
`sched` (each entry naming the member that completes) and are processed by
the completion handler. -/
def aggRun (outcomes : List (Except GVal GVal)) (sched : List Nat) : AggState :=
  sched.foldl (aggStep outcomes) (aggInit outcomes)

/-- Interleaved observable aggregator events: thunk starts, then consumed
member completions. -/
inductive AEv where
  | start (i : Nat)
  | consume (i : Nat)
  deriving DecidableEq, Repr

/-- The full observable history of an aggregator run: every member start
(synchronous loop), followed by the completions actually consumed. -/
def aggTrace (outcomes : List (Except GVal GVal)) (sched : List Nat) :
    List AEv :=
  (aggStarts outcomes.length).map .start ++
    (aggRun outcomes sched).consumed.map .consume

/-- The success value a member reports, if its outcome is a success. -/
def exceptOk (o : Except GVal GVal) : Option GVal :=
  match o with
  | .ok v => some v
  | .error _ => none

/-- Outcomes of the members of a yielded array: each member is invoked as a
function (line 406), so its completion is the outcome its `thunkv` carries. -/
def memberOutcomes (xs : List GVal) : List (Except GVal GVal) :=
  xs.map (fun x =>
    match x with
    | .thunkv o => o
    | _ => .error (.str "member is not a function"))

/-- The `results` array as the value handed to the generator: holes read as
`undefined`. -/
def resultsToGVal (rs : List (Option GVal)) : GVal :=
  .arrv (rs.map (fun o => o.getD .undef))

/-- First invocation of the aggregate completion callback, if any: the
runner registers a single completion callback on the aggregate thunk
(line 379), and the first `done` call is what resumes it. -/
def aggFirstDone (xs : List GVal) (sched : List Nat) :
    Option (Except GVal (List (Option GVal))) :=
  (aggRun (memberOutcomes xs) sched).dones.head?

/-- Resumption events of a run: the initial `gen.next()` (line 376 on the
first `next()` call), each value resumption `gen.next(result)` (line 381),
and each failure injection `gen.throw(err)` (line 380). -/
inductive REv where
  | started
  | resumedVal (v : GVal)
  | resumedErr (e : GVal)

/-- A synchronous exception escaping the runner: the `toThunk` type error
(line 393) or an exception propagating out of the generator. -/
inductive EscapeErr where
  | thunkTypeError (msg : String)
  | uncaught (e : GVal)

/-- How a run ends: the generator completed (`ret.done`, line 377); the run
is suspended waiting on a completion that never arrives; or a synchronous
exception escaped `run` or the in-flight completion callback. -/
inductive ROutcome where
  | finished (v : GVal)
  | suspended
  | escaped (err : EscapeErr)

/-- Invoking the converted work item (line 379): a single thunk completes
with its outcome; an aggregate starts all members and completes with the
first `done` invocation (`none` when `done` is never called, so the runner
callback never fires); invoking a non-function member crashes. -/
def invokeThunk (sched : List Nat) : Thunked → Option (Option (Except GVal GVal))
  | .single o => some (some o)
  | .aggregate xs =>
    if xs.all isThunkV then
      some ((aggFirstDone xs sched).map (fun o => o.map resultsToGVal))
    else none

/-- The recursive driver `next(incoming)` (lines 375-383), entered at the
point where `gen.next` / `gen.throw` has produced the generator position
`p`.

A completed generator stops the run (line 377).  A yielded value is
converted by `toThunk` (line 378), whose type error escapes synchronously.
The work item is then invoked with the completion callback
`function(err, result) \x7b if (err) gen.throw(err); next(result); \x7d`
(lines 379-382).  On success this is `gen.next(result)`.  On failure it is
`gen.throw(err)`; because the `if` has no `return`, when the generator
catches the injected error the iterator result returned by `gen.throw` is
discarded (a work item yielded by the catch block is never started) and
`next(result)` still runs with `result` equal to `undefined`, resuming the
generator a second time via `gen.next(undefined)`.  When the error is not
caught, `gen.throw` itself throws, so `next(result)` is skipped and the
error escapes.  If the generator ran to completion inside `gen.throw`, the
trailing `gen.next(undefined)` hits a finished generator, executes no body
code, and returns a done result, ending the run (line 377). -/
def drive (sched : List Nat) : Nat → List REv → Proc → List REv × ROutcome
  | 0, evs, _ => (evs, .suspended)
  | f + 1, evs, p =>
    match p with
    | .ret v => (evs, .finished v)
    | .raise e => (evs, .escaped (.uncaught e))
    | .yld item onv =>
      match toThunk item with
      | .error msg => (evs, .escaped (.thunkTypeError msg))
      | .ok th =>
        match invokeThunk sched th with
        | none => (evs, .escaped (.uncaught (.str "member is not a function")))
        | some none => (evs, .suspended)
        | some (some (.ok v)) =>
          drive sched f (evs ++ [.resumedVal v]) (onv v)
        | some (some (.error e)) =>
          (evs ++ [.resumedErr e], .escaped (.uncaught e))
    | .yldTry item onv onerr =>
      match toThunk item with
      | .error msg => (evs, .escaped (.thunkTypeError msg))
      | .ok th =>
        match invokeThunk sched th with
        | none => (evs, .escaped (.uncaught (.str "member is not a function")))
        | some none => (evs, .suspended)
        | some (some (.ok v)) =>
          drive sched f (evs ++ [.resumedVal v]) (onv v)
        | some (some (.error e)) =>
          match onerr e with
          | .ret v => (evs ++ [.resumedErr e], .finished v)
          | .raise e2 => (evs ++ [.resumedErr e], .escaped (.uncaught e2))
          | .yld _ onv2 =>
            drive sched f (evs ++ [.resumedErr e, .resumedVal .undef])
              (onv2 .undef)
          | .yldTry _ onv2 _ =>
            drive sched f (evs ++ [.resumedErr e, .resumedVal .undef])
              (onv2 .undef)

/-- Entry point `run(genFn)` (lines 371-374): creates the generator and
calls `next()` for the first time, which issues the initial `gen.next()`. -/
def runGen (fuel : Nat) (sched : List Nat) (p : Proc) : List REv × ROutcome :=
  drive sched fuel [.started] p

end GenCore



namespace PromiseCore

/-- Scenario for result-resolution of a non-promise-like handler return:
`d.promise.then(a).then(b)` where `a = function(x) \x7b return 7 \x7d` and
`b` observes its argument, followed by `d.resolve(5)`.  Deferred ids:
`d = 0`, the deferred behind `then(a)` is `1`, behind `then(b)` is `2`. -/
def c1Run : PState :=
  let sd := defer pInit
  let s2 := thenOp sd.1 sd.2 (.hconst (.num 7)) none
  let s3 := thenOp s2.1 s2.2 (.hrecord "b") none
  exec 10 s3.1 (.res sd.2 (.num 5))

/-- Scenario for default error pass-through with a throwing first handler:
`d.promise.then(a).then(b, errH)` where `a` throws `e` and `then(a)` has no
failure handler, followed by `d.resolve(5)`. -/
def c6ThrowRun (e : Val) : PState :=
  let sd := defer pInit
  let s2 := thenOp sd.1 sd.2 (.hthrow e) none
  let s3 := thenOp s2.1 s2.2 (.hrecord "b") (some (.hrecord "errH"))
  exec 10 s3.1 (.res sd.2 (.num 5))

/-- Scenario for default error pass-through with a failing source:
`d.promise.then(a).then(b, errH)` where `then(a)` has no failure handler,
followed by `d.reject(e)`: the default errback re-raises `e` into the next
link. -/
def c6RejectRun (e : Val) : PState :=
  let sd := defer pInit
  let s2 := thenOp sd.1 sd.2 (.hrecord "a") none
  let s3 := thenOp s2.1 s2.2 (.hrecord "b") (some (.hrecord "errH"))
  exec 10 s3.1 (.rej sd.2 e)

/-- Scenario for a throwing success handler:
`d.promise.then(a, pErrH).then(b, errH2)` where `a` throws `e`, followed by
`d.resolve(v)`.  Deferred ids: `d = 0`, next deferreds `1` and `2`. -/
def c7SuccessThrowRun (v e : Val) : PState :=
  let sd := defer pInit
  let s2 := thenOp sd.1 sd.2 (.hthrow e) (some (.hrecord "pErrH"))
  let s3 := thenOp s2.1 s2.2 (.hrecord "b") (some (.hrecord "errH2"))
  exec 10 s3.1 (.res sd.2 v)

/-- Scenario for a throwing failure handler:
`d.promise.then(a, fThrow).then(b, errH2)` where the failure handler of the
first `then` throws `e1`, followed by `d.reject(e0)`. -/
def c7FailThrowRun (e0 e1 : Val) : PState :=
  let sd := defer pInit
  let s2 := thenOp sd.1 sd.2 (.hrecord "a") (some (.hthrow e1))
  let s3 := thenOp s2.1 s2.2 (.hrecord "b") (some (.hrecord "errH2"))
  exec 10 s3.1 (.rej sd.2 e0)

/-- Scenario for settlement before registration: a fresh deferred is
resolved with `42` while no continuation pair is registered, and only
afterwards is a continuation registered via `then`. -/
def c8Run : PState :=
  let sd := defer pInit
  let s2 := exec 10 sd.1 (.res sd.2 (.num 42))
  (thenOp s2 sd.2 (.hrecord "late") none).1

/-- Base of the adoption chain: a deferred `d` (id `0`) whose promise has
an observer registered via `then`. -/
def chainBase : PState × Nat :=
  let sd := defer pInit
  ((thenOp sd.1 sd.2 (.hrecord "obs") none).1, sd.2)

/-- One adoption link: allocate a fresh deferred `P` and settle the
previous promise with it via `Resolve(prev, P.promise)`, which registers
the forwarding continuations on `P`. -/
def chainLink (s : PState) (prev : Nat) : PState × Nat :=
  let sp := defer s
  (ResolveOp 0 sp.1 prev (.prom sp.2), sp.2)

/-- A chain of `n` nested adoptions on top of the observed deferred:
`Resolve(d, P1)`, `Resolve(P1, P2)`, ..., `Resolve(Pn-1, Pn)`.  Returns the
state together with the innermost promise, whose eventual plain settlement
must propagate to the observer. -/
def buildChain : Nat → PState × Nat
  | 0 => chainBase
  | n + 1 =>
    let sn := buildChain n
    chainLink sn.1 sn.2

/-- Shape of an adoption chain in the heap: from deferred `i`, `n` adoption
hops (each a callback slot holding a forwarding continuation into the next
deferred) reach the deferred carrying the observer handler.  The auxiliary
deferreds allocated by the `then` calls have empty callback slots. -/
def chainTo (s : PState) : Nat → Nat → Prop
  | i, 0 =>
    i < s.heap.length ∧
    ∃ aux, aux < s.heap.length ∧
      (getDef s i).callback = some (.hrecord "obs", aux) ∧
      (getDef s aux).callback = none
  | i, n + 1 =>
    i < s.heap.length ∧
    ∃ tgt aux, aux < s.heap.length ∧
      (getDef s i).callback = some (.hadoptRes tgt, aux) ∧
      (getDef s aux).callback = none ∧
      chainTo s tgt n

end PromiseCore

namespace GenCore

/-- Scenario for injected-failure handling by the runner: the procedure
yields a failing thunk from inside a `try` block whose catch handler yields
a second (succeeding) thunk:
`try \x7b yield failing \x7d catch (e) \x7b v = yield second \x7d; return v`. -/
def c2Proc : Proc :=
  .yldTry (.thunkv (.error (.str "boom")))
    (fun v => .ret v)
    (fun _ => .yld (.thunkv (.ok (.str "second"))) (fun v2 => .ret v2))

/-- Success value of the member at index `i`, when that member exists and
reports success. -/
def okAt (outcomes : List (Except GVal GVal)) (i : Nat) : Option GVal :=
  match outcomes[i]? with
  | some (.ok v) => some v
  | _ => none

/-- State of the aggregator after consuming exactly the member completions
in `processed` (all successes): every consumed member result sits at its
original index, `pending` counts the others, the completion callback has
fired only if everything is consumed (and there was anything to consume),
and the consumption order is recorded. -/
def AggInv (outcomes : List (Except GVal GVal)) (processed : List Nat)
    (st : AggState) : Prop :=
  st.results.length = outcomes.length ∧
  (∀ j : Nat, st.results[j]? =
    if j < outcomes.length then
      some (if j ∈ processed then okAt outcomes j else none)
    else none) ∧
  st.pending = outcomes.length - processed.length ∧
  st.consumed = processed ∧
  st.dones =
    (if 0 < outcomes.length ∧ processed.length = outcomes.length then
      [.ok st.results] else [])

end GenCore

namespace GenCore

theorem aggStep_nil (st : AggState) (i : Nat) : aggStep [] st i = st := rfl

theorem aggRun_nil : ∀ sched : List Nat, aggRun [] sched = aggInit []
  | [] => rfl
  | i :: rest => by
    show rest.foldl (aggStep []) (aggStep [] (aggInit []) i) = aggInit []
    rw [aggStep_nil]
    exact aggRun_nil rest

end GenCore

/-- C1.  In `then(a).then(b)` with `a` returning the plain (non-thenable)
value `7`, the next promise is not settled with `7`: the `Resolve` call at
line 925 executes `deferred.resolve(null, value)` although `resolve`
(line 904) binds a single parameter, so `b` receives `null` — the returned
value is discarded.  The run resolves deferred `1` with `null`, invokes `b`
with `null`, and no event delivering `7` to `b` ever occurs. -/
theorem c1_nonthenable_return_delivers_null :
    PromiseCore.c1Run.events =
      [.resolveCalled 0 (.num 5), .resolveCalled 1 .vnull,
       .handlerRan "b" .vnull, .resolveCalled 2 .vnull] ∧
    PromiseCore.Ev.handlerRan "b" (.num 7) ∉ PromiseCore.c1Run.events := by
  exact ⟨rfl, by decide⟩

/-- C2.  When the awaited thunk reports an error and the generator catches
the injected failure, the runner resumes the generator twice for the single
completion: `gen.throw` with the error, and then — because line 380 has no
`return` — `next(result)` still runs, issuing `gen.next(undefined)`.  The
catch block's own yielded work item is discarded, so the post-catch
suspension receives `undefined` and the run finishes with `undefined`
instead of the second thunk's value.  The success path, by contrast,
resumes exactly once with the produced value. -/
theorem c2_caught_failure_double_resumption :
    GenCore.runGen 5 [] GenCore.c2Proc =
      ([.started, .resumedErr (.str "boom"), .resumedVal .undef],
        .finished .undef) ∧
    (∀ (v : GenCore.GVal) (f : Nat),
      GenCore.runGen (f + 2) [] (.yld (.thunkv (.ok v)) (fun r => .ret r)) =
        ([.started, .resumedVal v], .finished v)) := by
  exact ⟨rfl, fun v f => rfl⟩

/-- C6.  With `then(a)` registered without a failure handler and
`then(b, errH)` downstream, a failure arising at the first link is
delivered to `errH` and `b` is never invoked: when `a` throws `e`, the
wrapper rejects the next deferred with `e` and its errback runs `errH(e)`;
when the source deferred is rejected with `e`, the default errback
(lines 891-893) re-raises `e` unchanged into the next link.  In both runs
the only handler invocation is `errH` with exactly `e`. -/
theorem c6_default_error_passthrough (e : PromiseCore.Val) :
    (PromiseCore.c6ThrowRun e).events =
      [.resolveCalled 0 (.num 5), .rejectCalled 1 e, .handlerRan "errH" e] ∧
    (PromiseCore.c6RejectRun e).events =
      [.rejectCalled 0 e, .rejectCalled 1 e, .handlerRan "errH" e] ∧
    (∀ x, PromiseCore.Ev.handlerRan "b" x ∉ (PromiseCore.c6ThrowRun e).events) ∧
    (∀ x, PromiseCore.Ev.handlerRan "b" x ∉ (PromiseCore.c6RejectRun e).events) := by
  have h1 : (PromiseCore.c6ThrowRun e).events =
      [.resolveCalled 0 (.num 5), .rejectCalled 1 e, .handlerRan "errH" e] := rfl
  have h2 : (PromiseCore.c6RejectRun e).events =
      [.rejectCalled 0 e, .rejectCalled 1 e, .handlerRan "errH" e] := rfl
  refine ⟨h1, h2, ?_, ?_⟩
  · intro x hx
    rw [h1] at hx
    simp at hx
  · intro x hx
    rw [h2] at hx
    simp at hx

/-- C7.  A handler that throws while executing rejects only the promise
returned by its own `then` call: the `catch` at lines 885-888 (resp.
897-899) calls `nextDeferred.reject`.  When the success handler of the
first link throws `e` after `d.resolve(v)`, deferred `1` is rejected with
`e` and the only rejection of deferred `0` never happens; when the failure
handler throws `e1` after `d.reject(e0)`, deferred `1` is rejected with
`e1` while deferred `0` sees only the external `reject(e0)` call. -/
theorem c7_handler_throw_rejects_next_only (v e e0 e1 : PromiseCore.Val) :
    (PromiseCore.c7SuccessThrowRun v e).events =
      [.resolveCalled 0 v, .rejectCalled 1 e, .handlerRan "errH2" e] ∧
    (∀ x, PromiseCore.Ev.rejectCalled 0 x ∉
      (PromiseCore.c7SuccessThrowRun v e).events) ∧
    (PromiseCore.c7FailThrowRun e0 e1).events =
      [.rejectCalled 0 e0, .rejectCalled 1 e1, .handlerRan "errH2" e1] ∧
    (∀ x, PromiseCore.Ev.rejectCalled 0 x ∈
        (PromiseCore.c7FailThrowRun e0 e1).events → x = e0) := by
  have h1 : (PromiseCore.c7SuccessThrowRun v e).events =
      [.resolveCalled 0 v, .rejectCalled 1 e, .handlerRan "errH2" e] := rfl
  have h3 : (PromiseCore.c7FailThrowRun e0 e1).events =
      [.rejectCalled 0 e0, .rejectCalled 1 e1, .handlerRan "errH2" e1] := rfl
  refine ⟨h1, ?_, h3, ?_⟩
  · intro x hx
    rw [h1] at hx
    simp at hx
  · intro x hx
    rw [h3] at hx
    simp at hx
    exact hx

/-- C8 counterexample.  Settling a deferred before any continuation pair is
registered is a silent no-op: after `d.resolve(42)` with empty slots,
a continuation pair registered later via `then` is not invoked at
registration — the run's only event is the `resolve` call itself, and the
late handler never runs with `42` (or anything else). -/
theorem c8_late_registration_counterexample :
    PromiseCore.c8Run.events = [.resolveCalled 0 (.num 42)] ∧
    PromiseCore.Ev.handlerRan "late" (.num 42) ∉ PromiseCore.c8Run.events := by
  exact ⟨rfl, by decide⟩

/-- C8 amended.  In this code, `resolve`/`reject` on a deferred whose
callback/errback slots are empty does nothing and stores nothing
(lines 904-909 guard on the slot being set): the heap is unchanged, and a
continuation pair registered afterwards via `then` is never invoked with
the earlier outcome — the settlement is lost. -/
theorem c8_settlement_without_continuation_lost (v e : PromiseCore.Val)
    (f : Nat) (h : PromiseCore.Handler) (eb : Option PromiseCore.Handler) :
    (PromiseCore.exec (f + 1) (PromiseCore.defer PromiseCore.pInit).1
        (.res 0 v)).events = [.resolveCalled 0 v] ∧
    (PromiseCore.exec (f + 1) (PromiseCore.defer PromiseCore.pInit).1
        (.res 0 v)).heap = (PromiseCore.defer PromiseCore.pInit).1.heap ∧
    ((PromiseCore.thenOp (PromiseCore.exec (f + 1)
        (PromiseCore.defer PromiseCore.pInit).1 (.res 0 v)) 0 h eb).1).events =
      [.resolveCalled 0 v] ∧
    (PromiseCore.exec (f + 1) (PromiseCore.defer PromiseCore.pInit).1
        (.rej 0 e)).events = [.rejectCalled 0 e] := by
  exact ⟨rfl, rfl, rfl, rfl⟩

/-- C9.  For the empty array, `arrayToThunk` never invokes its completion
callback: `pending` starts at `0` (line 398), the loop starts no members,
and `done` is called only inside member completions, so under every
completion schedule no `done` event and no consumption occurs; hence the
runner that awaits the aggregate is never resumed — the run of a procedure
yielding `[]` stops in the suspended state with the initial `gen.next()` as
its only generator interaction. -/
theorem c9_empty_array_suspends_forever (sched : List Nat) (f : Nat)
    (onv : GenCore.GVal → GenCore.Proc) :
    (GenCore.aggInit ([] : List (Except GenCore.GVal GenCore.GVal))).pending = 0 ∧
    (GenCore.aggRun [] sched).dones = [] ∧
    (GenCore.aggRun [] sched).consumed = [] ∧
    GenCore.runGen (f + 1) sched (.yld (.arrv []) onv) =
      ([.started], .suspended) := by
  have hrun := GenCore.aggRun_nil sched
  refine ⟨rfl, by rw [hrun]; rfl, by rw [hrun]; rfl, ?_⟩
  show GenCore.drive sched (f + 1) [.started] _ = _
  simp only [GenCore.drive, GenCore.toThunk, GenCore.invokeThunk,
    GenCore.aggFirstDone, GenCore.memberOutcomes, List.map_nil, List.all_nil,
    if_true, hrun]
  rfl

/-- C10.  A yielded value that is neither a function nor an array makes
`toThunk` throw `Error('We are only thunking arrays and functions')`
synchronously inside `next` (line 378), before any resumption: the
generator receives neither a value nor an injected failure for that work
item, and the error escapes the run.  This holds at a plain `yield` and at
one inside a `try` block alike. -/
theorem c10_tothunk_throws_on_plain_value (v : GenCore.GVal)
    (onv oe : GenCore.GVal → GenCore.Proc) (sched : List Nat) (f : Nat)
    (hv : GenCore.isWorkItem v = false) :
    GenCore.runGen (f + 1) sched (.yld v onv) =
      ([.started],
        .escaped (.thunkTypeError "We are only thunking arrays and functions")) ∧
    GenCore.runGen (f + 1) sched (.yldTry v onv oe) =
      ([.started],
        .escaped (.thunkTypeError "We are only thunking arrays and functions")) := by
  cases v <;> first
    | exact ⟨rfl, rfl⟩
    | simp [GenCore.isWorkItem] at hv

/-- C10 witness: a concrete plain value (`a string`) yielded first. -/
theorem c10_tothunk_throws_on_plain_value_witness :
    GenCore.isWorkItem (.str "clue1.txt") = false ∧
    GenCore.runGen 1 [] (.yld (.str "clue1.txt") (fun _ => .ret .undef)) =
      ([.started],
        .escaped (.thunkTypeError "We are only thunking arrays and functions")) :=
  ⟨rfl, (c10_tothunk_throws_on_plain_value (.str "clue1.txt")
    (fun _ => .ret .undef) (fun _ => .ret .undef) [] 0 rfl).1⟩

/-- C4 counterexample.  For the empty array of member thunks — whose zero
members all (vacuously) succeed — the aggregate completion callback is
never invoked at all, so it does not receive the (empty) array of member
results. -/
theorem c4_empty_array_counterexample :
    (GenCore.aggRun [] []).dones = [] ∧
    (GenCore.aggRun [] []).dones ≠ [.ok []] :=
  ⟨rfl, fun hc => List.noConfusion hc⟩

namespace GenCore

theorem aggInit_inv (outcomes : List (Except GVal GVal)) :
    AggInv outcomes [] (aggInit outcomes) := by
  refine ⟨List.length_replicate _ _, ?_, by simp [aggInit], rfl, ?_⟩
  · intro j
    by_cases hj : j < outcomes.length
    · simp [aggInit, List.getElem?_replicate, hj]
    · simp [aggInit, List.getElem?_replicate, hj]
  · have hcond : ¬(0 < outcomes.length ∧
        ([] : List Nat).length = outcomes.length) := by
      rintro ⟨h1, h2⟩
      simp only [List.length_nil] at h2
      omega
    rw [if_neg hcond]
    rfl

theorem aggStep_inv (outcomes : List (Except GVal GVal)) (processed : List Nat)
    (st : AggState) (i : Nat) (v : GVal)
    (hinv : AggInv outcomes processed st)
    (hv : outcomes[i]? = some (.ok v))
    (hnotin : i ∉ processed)
    (hnd : processed.Nodup)
    (hbound : ∀ x ∈ processed, x < outcomes.length)
    (hi : i < outcomes.length) :
    AggInv outcomes (processed ++ [i]) (aggStep outcomes st i) := by
  obtain ⟨hlen, hres, hpend, hcons, hdones⟩ := hinv
  have hndi : (processed ++ [i]).Nodup := by
    simp [List.nodup_append, hnd, hnotin]
  have hlenle : (processed ++ [i]).length ≤ outcomes.length := by
    have hcard : (processed ++ [i]).toFinset.card = (processed ++ [i]).length :=
      List.toFinset_card_of_nodup hndi
    have hsub : (processed ++ [i]).toFinset ⊆ Finset.range outcomes.length := by
      intro x hx
      simp only [List.mem_toFinset, List.mem_append, List.mem_singleton] at hx
      rcases hx with hx | hx
      · exact Finset.mem_range.mpr (hbound x hx)
      · subst hx
        exact Finset.mem_range.mpr hi
    have hle := Finset.card_le_card hsub
    rw [hcard] at hle
    simpa [Finset.card_range] using hle
  have hplt : processed.length < outcomes.length := by
    have : (processed ++ [i]).length = processed.length + 1 := by simp
    omega
  have hdnil : st.dones = [] := by
    rw [hdones, if_neg]
    intro hcontra
    omega
  simp only [aggStep, hv]
  refine ⟨by simp [hlen], ?_, ?_, by simp [hcons], ?_⟩
  · intro j
    by_cases hji : j = i
    · subst hji
      rw [List.getElem?_set_eq_of_lt (some v) (by omega)]
      have : okAt outcomes j = some v := by simp [okAt, hv]
      simp [hi, this]
    · rw [List.getElem?_set_ne (fun hc => hji hc.symm), hres j]
      by_cases hj : j < outcomes.length
      · have : (j ∈ processed ++ [i]) ↔ j ∈ processed := by
          simp [List.mem_append, hji]
        simp [hj, this]
      · simp [hj]
  · rw [hpend]
    simp only [List.length_append, List.length_singleton]
    omega
  · rw [hdnil, hpend]
    by_cases hfull : processed.length + 1 = outcomes.length
    · have hz : outcomes.length - processed.length - 1 = 0 := by omega
      have hcond : 0 < outcomes.length ∧
          (processed ++ [i]).length = outcomes.length := by
        constructor
        · omega
        · simp only [List.length_append, List.length_singleton]
          omega
      simp [hz, hcond]
    · have hz : ¬(outcomes.length - processed.length - 1 = 0) := by omega
      have hcond : ¬(0 < outcomes.length ∧
          (processed ++ [i]).length = outcomes.length) := by
        simp only [List.length_append, List.length_singleton, not_and]
        omega
      simp [hz, hcond]
      omega

theorem aggFold_inv (outcomes : List (Except GVal GVal)) :
    ∀ (sched processed : List Nat) (st : AggState),
      AggInv outcomes processed st →
      processed.Nodup →
      (∀ x ∈ processed, x < outcomes.length) →
      processed.Disjoint sched →
      sched.Nodup →
      (∀ x ∈ sched, x < outcomes.length) →
      (∀ x ∈ sched, ∃ v, outcomes[x]? = some (.ok v)) →
      AggInv outcomes (processed ++ sched) (sched.foldl (aggStep outcomes) st)
  | [], processed, st, hinv, _, _, _, _, _, _ => by simpa using hinv
  | i :: rest, processed, st, hinv, hnd, hb, hdisj, hsnd, hsb, hsok => by
    obtain ⟨hirest, hrestnd⟩ := List.nodup_cons.mp hsnd
    obtain ⟨v, hv⟩ := hsok i (by simp)
    have hnotin : i ∉ processed := fun hmem => hdisj hmem (by simp)
    have hstep := aggStep_inv outcomes processed st i v hinv hv hnotin hnd hb
      (hsb i (by simp))
    have hndi : (processed ++ [i]).Nodup := by
      simp [List.nodup_append, hnd, hnotin]
    have hbi : ∀ x ∈ processed ++ [i], x < outcomes.length := by
      intro x hx
      rcases List.mem_append.mp hx with hx | hx
      · exact hb x hx
      · rw [List.mem_singleton.mp hx]
        exact hsb i (by simp)
    have hdisji : (processed ++ [i]).Disjoint rest := by
      intro a ha harest
      rcases List.mem_append.mp ha with ha | ha
      · exact hdisj ha (by simp [harest])
      · rw [List.mem_singleton.mp ha] at harest
        exact hirest harest
    have hrec := aggFold_inv outcomes rest (processed ++ [i])
      (aggStep outcomes st i) hstep hndi hbi hdisji hrestnd
      (fun x hx => hsb x (by simp [hx]))
      (fun x hx => hsok x (by simp [hx]))
    simpa [List.append_assoc] using hrec

theorem consumed_foldl (outcomes : List (Except GVal GVal)) :
    ∀ (l : List Nat) (st : AggState), (∀ x ∈ l, x < outcomes.length) →
      (l.foldl (aggStep outcomes) st).consumed = st.consumed ++ l
  | [], st, _ => by simp
  | i :: rest, st, hb => by
    have hi : i < outcomes.length := hb i (by simp)
    have hsome : outcomes[i]? = some outcomes[i] := List.getElem?_eq_getElem hi
    have hcons : (aggStep outcomes st i).consumed = st.consumed ++ [i] := by
      cases hval : outcomes[i] with
      | ok v => simp [aggStep, hsome, hval]
      | error e2 => simp [aggStep, hsome, hval]
    show (rest.foldl _ (aggStep outcomes st i)).consumed = _
    rw [consumed_foldl outcomes rest _ (fun x hx => hb x (by simp [hx])), hcons]
    simp

theorem dones_foldl_extends (outcomes : List (Except GVal GVal)) :
    ∀ (l : List Nat) (st : AggState),
      ∃ t, (l.foldl (aggStep outcomes) st).dones = st.dones ++ t
  | [], st => ⟨[], by simp⟩
  | i :: rest, st => by
    obtain ⟨t, ht⟩ := dones_foldl_extends outcomes rest (aggStep outcomes st i)
    have hstep : ∃ u, (aggStep outcomes st i).dones = st.dones ++ u := by
      cases h : outcomes[i]? with
      | none => exact ⟨[], by simp [aggStep, h]⟩
      | some o =>
        cases o with
        | ok v =>
          exact ⟨if st.pending - 1 = 0 then
              [.ok (st.results.set i (some v))] else [],
            by simp [aggStep, h]⟩
        | error e2 => exact ⟨[.error e2], by simp [aggStep, h]⟩
    obtain ⟨u, hu⟩ := hstep
    refine ⟨u ++ t, ?_⟩
    show (rest.foldl _ (aggStep outcomes st i)).dones = _
    rw [ht, hu, List.append_assoc]

end GenCore

/-- C4 amended (nonempty arrays).  For every nonempty array of member
thunks whose members all succeed: the members are started in index order
before any completion is consumed; the completions may be consumed in an
arbitrary order (any permutation `sched` of the indices); and the single
aggregate completion fires exactly once, with every member result placed at
its original index — independently of the completion order. -/
theorem c4_fanout_fanin_order (outcomes : List (Except GenCore.GVal GenCore.GVal))
    (sched : List Nat)
    (hperm : sched.Perm (List.range outcomes.length))
    (hne : 0 < outcomes.length)
    (hok : ∀ o ∈ outcomes, o.isOk = true) :
    GenCore.aggTrace outcomes sched =
      (List.range outcomes.length).map .start ++ sched.map .consume ∧
    (GenCore.aggRun outcomes sched).consumed = sched ∧
    (GenCore.aggRun outcomes sched).dones =
      [.ok (outcomes.map GenCore.exceptOk)] := by
  have hnd : sched.Nodup := hperm.nodup_iff.mpr (List.nodup_range _)
  have hmem : ∀ x, x ∈ sched ↔ x < outcomes.length := by
    intro x
    rw [hperm.mem_iff, List.mem_range]
  have hb : ∀ x ∈ sched, x < outcomes.length := fun x hx => (hmem x).mp hx
  have hsok : ∀ x ∈ sched, ∃ v, outcomes[x]? = some (.ok v) := by
    intro x hx
    have hxlt := hb x hx
    have hsome : outcomes[x]? = some outcomes[x] := List.getElem?_eq_getElem hxlt
    have hmemo : outcomes[x] ∈ outcomes := List.getElem_mem hxlt
    have hisok := hok _ hmemo
    cases hval : outcomes[x] with
    | ok v => exact ⟨v, by rw [hsome, hval]⟩
    | error e =>
      rw [hval] at hisok
      simp [Except.isOk, Except.toBool] at hisok
  have hinv := GenCore.aggFold_inv outcomes sched [] (GenCore.aggInit outcomes)
    (GenCore.aggInit_inv outcomes) List.nodup_nil (by simp)
    (by intro a ha _; simp at ha) hnd hb hsok
  rw [List.nil_append] at hinv
  obtain ⟨hlen, hres, hpend, hcons, hdones⟩ := hinv
  have hslen : sched.length = outcomes.length := by simpa using hperm.length_eq
  have hreseq : (sched.foldl (GenCore.aggStep outcomes)
      (GenCore.aggInit outcomes)).results = outcomes.map GenCore.exceptOk := by
    apply List.ext_getElem?
    intro j
    rw [hres j]
    by_cases hj : j < outcomes.length
    · have hjs : j ∈ sched := (hmem j).mpr hj
      obtain ⟨v, hv⟩ := hsok j hjs
      have hmap : (outcomes.map GenCore.exceptOk)[j]? =
          some (GenCore.exceptOk (.ok v)) := by
        rw [List.getElem?_map, hv]
        rfl
      have hok2 : GenCore.okAt outcomes j = some v := by simp [GenCore.okAt, hv]
      simp [hj, hjs, hok2, hmap, GenCore.exceptOk]
    · have hj2 : outcomes.length ≤ j := Nat.le_of_not_lt hj
      simp [hj, List.getElem?_map, List.getElem?_eq_none hj2]
  refine ⟨?_, hcons, ?_⟩
  · show (GenCore.aggStarts outcomes.length).map _ ++
        (GenCore.aggRun outcomes sched).consumed.map _ = _
    rw [show (GenCore.aggRun outcomes sched).consumed = sched from hcons]
    rfl
  · show (sched.foldl (GenCore.aggStep outcomes)
        (GenCore.aggInit outcomes)).dones = _
    rw [hdones, if_pos ⟨hne, by omega⟩, hreseq]

/-- C4 witness: three successful members completing in the order 2, 0, 1
still deliver results in index order. -/
theorem c4_fanout_fanin_order_witness :
    ([2, 0, 1] : List Nat).Perm
      (List.range ([Except.ok (GenCore.GVal.num 10), Except.ok (.num 20),
        Except.ok (.num 30)] : List (Except GenCore.GVal GenCore.GVal)).length) ∧
    (0 : Nat) < ([Except.ok (GenCore.GVal.num 10), Except.ok (.num 20),
        Except.ok (.num 30)] : List (Except GenCore.GVal GenCore.GVal)).length ∧
    (GenCore.aggRun [Except.ok (GenCore.GVal.num 10), Except.ok (.num 20),
        Except.ok (.num 30)] [2, 0, 1]).dones =
      [.ok [some (GenCore.GVal.num 10), some (.num 20), some (.num 30)]] := by
  refine ⟨by decide, by decide, ?_⟩
  exact (c4_fanout_fanin_order
    [Except.ok (GenCore.GVal.num 10), Except.ok (.num 20), Except.ok (.num 30)]
    [2, 0, 1] (by decide) (by decide)
    (by intro o ho
        simp only [List.mem_cons, List.not_mem_nil, or_false] at ho
        rcases ho with rfl | rfl | rfl <;> rfl)).2.2

/-- C5.  When the members complete in an order in which every completion
before `j` succeeds and member `j` reports the error `e`: the aggregate
completion callback is invoked with `e` at the moment member `j` completes
(the `done` history right after that completion is exactly `[error e]` —
nothing waited for the remaining members); the remaining members are not
cancelled — the full schedule is still consumed to the end; and the first
`done` invocation of the whole run remains `error e`. -/
theorem c5_first_failure_wins (outcomes : List (Except GenCore.GVal GenCore.GVal))
    (pre post : List Nat) (j : Nat) (e : GenCore.GVal)
    (hperm : (pre ++ j :: post).Perm (List.range outcomes.length))
    (hpreok : ∀ x ∈ pre, ∃ v, outcomes[x]? = some (.ok v))
    (hj : outcomes[j]? = some (.error e)) :
    (GenCore.aggRun outcomes (pre ++ [j])).dones = [.error e] ∧
    (GenCore.aggRun outcomes (pre ++ j :: post)).consumed = pre ++ j :: post ∧
    ∃ rest, (GenCore.aggRun outcomes (pre ++ j :: post)).dones =
      .error e :: rest := by
  have hndall : (pre ++ j :: post).Nodup := hperm.nodup_iff.mpr (List.nodup_range _)
  have hmem : ∀ x, x ∈ pre ++ j :: post ↔ x < outcomes.length := by
    intro x
    rw [hperm.mem_iff, List.mem_range]
  have hball : ∀ x ∈ pre ++ j :: post, x < outcomes.length :=
    fun x hx => (hmem x).mp hx
  have hnd3 := List.nodup_append.mp hndall
  have hprend : pre.Nodup := hnd3.1
  have hpreb : ∀ x ∈ pre, x < outcomes.length :=
    fun x hx => hball x (List.mem_append.mpr (Or.inl hx))
  have hjb : j < outcomes.length := hball j (by simp)
  have hjpre : j ∉ pre := fun hc => hnd3.2.2 hc (by simp)
  have hlenall : (pre ++ j :: post).length = outcomes.length := by
    simpa using hperm.length_eq
  have hprelt : pre.length < outcomes.length := by
    simp only [List.length_append, List.length_cons] at hlenall
    omega
  have hinv := GenCore.aggFold_inv outcomes pre [] (GenCore.aggInit outcomes)
    (GenCore.aggInit_inv outcomes) List.nodup_nil (by simp)
    (by intro a ha _; simp at ha) hprend hpreb hpreok
  rw [List.nil_append] at hinv
  obtain ⟨hlen, hres, hpend, hcons, hdones⟩ := hinv
  have hdnil : (pre.foldl (GenCore.aggStep outcomes)
      (GenCore.aggInit outcomes)).dones = [] := by
    rw [hdones, if_neg]
    rintro ⟨h1, h2⟩
    omega
  have hsplit1 : GenCore.aggRun outcomes (pre ++ [j]) =
      GenCore.aggStep outcomes
        (pre.foldl (GenCore.aggStep outcomes) (GenCore.aggInit outcomes)) j := by
    show (pre ++ [j]).foldl _ _ = _
    rw [List.foldl_append]
    rfl
  have hstepj : (GenCore.aggStep outcomes
      (pre.foldl (GenCore.aggStep outcomes) (GenCore.aggInit outcomes)) j).dones
      = [.error e] := by
    simp [GenCore.aggStep, hj, hdnil]
  have hfirst : (GenCore.aggRun outcomes (pre ++ [j])).dones = [.error e] := by
    rw [hsplit1, hstepj]
  have hassoc : pre ++ j :: post = (pre ++ [j]) ++ post := by
    simp
  have hsplit2 : GenCore.aggRun outcomes (pre ++ j :: post) =
      post.foldl (GenCore.aggStep outcomes)
        (GenCore.aggRun outcomes (pre ++ [j])) := by
    show (pre ++ j :: post).foldl _ _ = _
    rw [hassoc, List.foldl_append]
    rfl
  refine ⟨hfirst, ?_, ?_⟩
  · rw [hsplit2, GenCore.consumed_foldl outcomes post _
      (fun x hx => hball x (by simp [hx]))]
    have hconsj : (GenCore.aggRun outcomes (pre ++ [j])).consumed = pre ++ [j] := by
      rw [hsplit1]
      simp [GenCore.aggStep, hj, hcons]
    rw [hconsj]
    simp
  · obtain ⟨t, ht⟩ := GenCore.dones_foldl_extends outcomes post
      (GenCore.aggRun outcomes (pre ++ [j]))
    refine ⟨t, ?_⟩
    rw [hsplit2, ht, hfirst]
    rfl

/-- C5 witness: members `[ok 10, error bad, ok 30]` completing in the order
2, 1, 0 — the failure of member 1 is reported immediately after its
completion, and member 0 still completes afterwards. -/
theorem c5_first_failure_wins_witness :
    (([2] ++ 1 :: [0]) : List Nat).Perm
      (List.range ([Except.ok (GenCore.GVal.num 10),
        Except.error (GenCore.GVal.str "bad"),
        Except.ok (.num 30)] : List (Except GenCore.GVal GenCore.GVal)).length) ∧
    (GenCore.aggRun [Except.ok (GenCore.GVal.num 10),
        Except.error (GenCore.GVal.str "bad"), Except.ok (.num 30)]
        ([2] ++ [1])).dones = [.error (GenCore.GVal.str "bad")] ∧
    (GenCore.aggRun [Except.ok (GenCore.GVal.num 10),
        Except.error (GenCore.GVal.str "bad"), Except.ok (.num 30)]
        ([2] ++ 1 :: [0])).consumed = [2] ++ 1 :: [0] := by
  have h := c5_first_failure_wins
    [Except.ok (GenCore.GVal.num 10), Except.error (GenCore.GVal.str "bad"),
      Except.ok (.num 30)]
    [2] [0] 1 (GenCore.GVal.str "bad") (by decide)
    (by intro x hx
        simp only [List.mem_singleton] at hx
        rw [hx]
        exact ⟨.num 30, rfl⟩)
    rfl
  exact ⟨by decide, h.1, h.2.1⟩

namespace PromiseCore

theorem setAppendTwo {α : Type} (l : List α) (a b v : α) :
    (l ++ [a, b]).set l.length v = l ++ [v, b] := by
  induction l with
  | nil => rfl
  | cons x xs ih =>
    show x :: ((xs ++ [a, b]).set xs.length v) = x :: (xs ++ [v, b])
    rw [ih]

theorem getDAppendLt {α : Type} (l r : List α) (j : Nat) (d : α)
    (h : j < l.length) : (l ++ r).getD j d = l.getD j d := by
  induction l generalizing j with
  | nil => exact absurd h (Nat.not_lt_zero j)
  | cons x xs ih =>
    cases j with
    | zero => rfl
    | succ m => exact ih m (by simpa using h)

theorem getDAppendSelf {α : Type} (l : List α) (x : α) (r : List α) (d : α) :
    (l ++ x :: r).getD l.length d = x := by
  induction l with
  | nil => rfl
  | cons y ys ih => exact ih

theorem getDAppendSucc {α : Type} (l : List α) (a b d : α) :
    (l ++ [a, b]).getD (l.length + 1) d = b := by
  induction l with
  | nil => rfl
  | cons x xs ih => exact ih

theorem getDef_heapEq (s1 s2 : PState) (j : Nat) (h : s1.heap = s2.heap) :
    getDef s1 j = getDef s2 j := by
  unfold getDef
  rw [h]

theorem exec_res_none (f : Nat) (s : PState) (d : Nat) (v : Val)
    (hcb : (getDef s d).callback = none) :
    exec (f + 1) s (.res d v) =
      { s with events := s.events ++ [.resolveCalled d v] } := by
  simp only [exec]
  rw [show getDef { s with events := s.events ++ [Ev.resolveCalled d v] } d
      = getDef s d from rfl, hcb]

theorem exec_res_record (f : Nat) (s : PState) (d aux : Nat) (tag : String)
    (v : Val) (hcb : (getDef s d).callback = some (.hrecord tag, aux)) :
    exec (f + 1) s (.res d v) =
      exec f { s with events :=
          s.events ++ [.resolveCalled d v, .handlerRan tag v] }
        (.res aux .vnull) := by
  simp only [exec]
  rw [show getDef { s with events := s.events ++ [Ev.resolveCalled d v] } d
      = getDef s d from rfl, hcb]
  simp [List.append_assoc]

theorem exec_res_adoptRes (f : Nat) (s : PState) (d tgt aux : Nat) (v : Val)
    (hcb : (getDef s d).callback = some (.hadoptRes tgt, aux)) :
    exec (f + 1) s (.res d v) =
      exec f
        (exec f { s with events := s.events ++ [.resolveCalled d v] }
          (.res tgt v))
        (.res aux .vnull) := by
  simp only [exec]
  rw [show getDef { s with events := s.events ++ [Ev.resolveCalled d v] } d
      = getDef s d from rfl, hcb]

theorem chainTo_frame (s s2 : PState)
    (hkeep : ∀ j, j < s.heap.length → getDef s2 j = getDef s j)
    (hlen : s.heap.length ≤ s2.heap.length) :
    ∀ n i, chainTo s i n → chainTo s2 i n := by
  intro n
  induction n with
  | zero =>
    intro i h
    simp only [chainTo] at h ⊢
    obtain ⟨hi, aux, haux, hcb, hauxcb⟩ := h
    exact ⟨Nat.lt_of_lt_of_le hi hlen, aux, Nat.lt_of_lt_of_le haux hlen,
      by rw [hkeep i hi]; exact hcb,
      by rw [hkeep aux haux]; exact hauxcb⟩
  | succ m ih =>
    intro i h
    simp only [chainTo] at h ⊢
    obtain ⟨hi, tgt, aux, haux, hcb, hauxcb, hrest⟩ := h
    exact ⟨Nat.lt_of_lt_of_le hi hlen, tgt, aux, Nat.lt_of_lt_of_le haux hlen,
      by rw [hkeep i hi]; exact hcb,
      by rw [hkeep aux haux]; exact hauxcb,
      ih tgt hrest⟩

theorem handlerEvents_append (a b : List Ev) :
    handlerEvents (a ++ b) = handlerEvents a ++ handlerEvents b := by
  unfold handlerEvents
  rw [List.filter_append]

theorem chain_run : ∀ (n f : Nat) (s : PState) (i : Nat),
    chainTo s i n → n + 2 ≤ f →
    (exec f s (.res i (.num 42))).heap = s.heap ∧
    ∃ E, (exec f s (.res i (.num 42))).events = s.events ++ E ∧
      handlerEvents E = [.handlerRan "obs" (.num 42)] := by
  intro n
  induction n with
  | zero =>
    intro f s i hchain hf
    simp only [chainTo] at hchain
    obtain ⟨hi, aux, haux, hcb, hauxcb⟩ := hchain
    obtain ⟨f1, rfl⟩ : ∃ f1, f = f1 + 1 := ⟨f - 1, by omega⟩
    rw [exec_res_record f1 s i aux "obs" (.num 42) hcb]
    obtain ⟨f2, rfl⟩ : ∃ f2, f1 = f2 + 1 := ⟨f1 - 1, by omega⟩
    rw [exec_res_none f2
      { s with events := s.events ++
          [Ev.resolveCalled i (Val.num 42), Ev.handlerRan "obs" (Val.num 42)] }
      aux .vnull hauxcb]
    refine ⟨rfl, [.resolveCalled i (.num 42), .handlerRan "obs" (.num 42),
      .resolveCalled aux .vnull], by simp, rfl⟩
  | succ m ih =>
    intro f s i hchain hf
    simp only [chainTo] at hchain
    obtain ⟨hi, tgt, aux, haux, hcb, hauxcb, hrest⟩ := hchain
    obtain ⟨f1, rfl⟩ : ∃ f1, f = f1 + 1 := ⟨f - 1, by omega⟩
    rw [exec_res_adoptRes f1 s i tgt aux (.num 42) hcb]
    have hrest1 : chainTo
        { s with events := s.events ++ [Ev.resolveCalled i (Val.num 42)] }
        tgt m :=
      chainTo_frame s
        { s with events := s.events ++ [Ev.resolveCalled i (Val.num 42)] }
        (fun _ _ => rfl) (Nat.le_refl _) m tgt hrest
    have hmid := ih f1
      { s with events := s.events ++ [Ev.resolveCalled i (Val.num 42)] }
      tgt hrest1 (by omega)
    obtain ⟨hheap, E1, hevents, hhe⟩ := hmid
    obtain ⟨f2, rfl⟩ : ∃ f2, f1 = f2 + 1 := ⟨f1 - 1, by omega⟩
    have hauxmid : (getDef (exec (f2 + 1)
        { s with events := s.events ++ [Ev.resolveCalled i (Val.num 42)] }
        (.res tgt (.num 42))) aux).callback = none := by
      rw [getDef_heapEq _ s aux (by rw [hheap])]
      exact hauxcb
    rw [exec_res_none f2
      (exec (f2 + 1)
        { s with events := s.events ++ [Ev.resolveCalled i (Val.num 42)] }
        (.res tgt (.num 42)))
      aux .vnull hauxmid]
    refine ⟨hheap, [Ev.resolveCalled i (.num 42)] ++ E1 ++
      [Ev.resolveCalled aux .vnull], ?_, ?_⟩
    · show (exec (f2 + 1) _ (.res tgt (.num 42))).events ++
        [Ev.resolveCalled aux Val.vnull] = _
      rw [hevents]
      simp [List.append_assoc]
    · rw [handlerEvents_append, handlerEvents_append, hhe]
      rfl

theorem buildChain_spec : ∀ n : Nat,
    chainTo (buildChain n).1 (buildChain n).2 n ∧ (buildChain n).1.events = []
  | 0 => by
    constructor
    · simp only [buildChain, chainBase, chainTo]
      exact ⟨by decide, 1, by decide, rfl, rfl⟩
    · rfl
  | n + 1 => by
    obtain ⟨hchain, hevents⟩ := buildChain_spec n
    have hheap : (buildChain (n + 1)).1.heap =
        (buildChain n).1.heap ++
          [⟨some (.hadoptRes (buildChain n).2, (buildChain n).1.heap.length + 1),
            some (.hadoptErr (buildChain n).2, (buildChain n).1.heap.length + 1)⟩,
           ⟨none, none⟩] := by
      show (((buildChain n).1.heap ++ [(⟨none, none⟩ : Deferred)] ++
            [(⟨none, none⟩ : Deferred)]).set
          (buildChain n).1.heap.length
          (⟨some (.hadoptRes (buildChain n).2,
            ((buildChain n).1.heap ++ [(⟨none, none⟩ : Deferred)]).length),
           some (.hadoptErr (buildChain n).2,
            ((buildChain n).1.heap ++ [(⟨none, none⟩ : Deferred)]).length)⟩ :
              Deferred)) = _
      rw [show ((buildChain n).1.heap ++ [(⟨none, none⟩ : Deferred)]).length
          = (buildChain n).1.heap.length + 1 by simp]
      rw [List.append_assoc]
      exact setAppendTwo (buildChain n).1.heap ⟨none, none⟩ ⟨none, none⟩ _
    have hev2 : (buildChain (n + 1)).1.events = (buildChain n).1.events := rfl
    have hid : (buildChain (n + 1)).2 = (buildChain n).1.heap.length := rfl
    constructor
    · simp only [chainTo]
      rw [hid]
      refine ⟨?_, (buildChain n).2, (buildChain n).1.heap.length + 1,
        ?_, ?_, ?_, ?_⟩
      · rw [hheap]
        simp only [List.length_append, List.length_cons, List.length_nil]
        omega
      · rw [hheap]
        simp only [List.length_append, List.length_cons, List.length_nil]
        omega
      · unfold getDef
        rw [hheap, getDAppendSelf]
      · unfold getDef
        rw [hheap, getDAppendSucc]
      · refine chainTo_frame (buildChain n).1 (buildChain (n + 1)).1 ?_ ?_ n
          (buildChain n).2 hchain
        · intro j hj
          unfold getDef
          rw [hheap]
          exact getDAppendLt (buildChain n).1.heap _ j _ hj
        · rw [hheap]
          simp only [List.length_append, List.length_cons, List.length_nil]
          omega
    · rw [hev2]
      exact hevents

end PromiseCore

/-- C3.  Adoption is transitive at every depth: with an observer registered
on deferred `d` and a chain of `n` adoptions built by `Resolve` — `d`
settled with promise `P1`, each `Pk` settled with `Pk+1` — resolving the
innermost promise with the plain value `42` makes the observer receive
exactly `42`: the run's only handler invocation is the observer with `42`,
so no promise object (and no other value) is ever delivered as the settled
value, at any nesting depth. -/
theorem c3_adoption_transitive_every_depth (n : Nat) :
    PromiseCore.handlerEvents
      (PromiseCore.exec (n + 3) (PromiseCore.buildChain n).1
        (.res (PromiseCore.buildChain n).2 (.num 42))).events =
      [.handlerRan "obs" (.num 42)] := by
  obtain ⟨hchain, hevents⟩ := PromiseCore.buildChain_spec n
  obtain ⟨hheap, E, hE, hhe⟩ :=
    PromiseCore.chain_run n (n + 3) (PromiseCore.buildChain n).1
      (PromiseCore.buildChain n).2 hchain (by omega)
  rw [hE, hevents, List.nil_append, hhe]
